import Mathlib

/-!
Verification development for the mpags-cipher repository (day 6).

The embedding below models, over `List Char` and `ZMod 26`:

* `Cipher::splitString` (src/MPAGSCipher/Cipher.hpp, lines 45-72): the
  chunk splitter used by the concurrent pipeline.  The C++ loop
  `for (i = 0; i < str_length; i = i + part_size)` need not terminate
  (when `part_size = 0`), so the loop is embedded with an explicit fuel
  parameter; `none` means the loop has not finished within the given fuel,
  and divergence is expressed as `none` for every fuel.
* the cipher phase of `main` (the unnamed main source file, lines
  127-160): splitting into `nThreads = 4` substrings, launching one
  worker per index with `applyCipher(substrs[i], mode)`, polling, and
  recombining `substrs[0] + substrs[1] + substrs[2] + substrs[3]`.
* the cipher algorithms (Caesar, Vigenère, Playfair), whose
  implementation files are not part of the sources at hand; they are
  modelled from the specification.
-/

/-- Modelled from the spec: the `CipherMode` enumeration {Encrypt, Decrypt}
(`CipherMode.hpp` is not among the sources; only its two enumerators are
used by `Cipher.hpp` and `main`). -/
inductive CipherMode where
  | Encrypt : CipherMode
  | Decrypt : CipherMode
deriving DecidableEq

/-- The chunk pushed by one iteration of the loop body of
`Cipher::splitString` (Cipher.hpp lines 52-69).  `std::string::substr(pos,
count)` returns at most `count` characters starting at `pos`, clamping
`count` to the remaining length, i.e. `(str.drop pos).take count`.
Note the source passes `i + part_size` (not `part_size`) as the count in
the non-final branches, and `str_length - 1` in the final branch. -/
def splitChunk (str : List Char) (n i partSize : Nat) : List Char :=
  if str.length % n ≠ 0 then
    if str.length ≤ i + partSize then (str.drop i).take (str.length - 1)
    else (str.drop i).take (i + partSize)
  else (str.drop i).take (i + partSize)

/-- The loop of `Cipher::splitString` (Cipher.hpp lines 52-69), with fuel:
`none` means the loop has not terminated within `fuel` iterations.
The loop index advances by `partSize` each iteration. -/
def splitStringLoop (str : List Char) (n partSize i : Nat) : Nat → Option (List (List Char))
  | 0 => none
  | fuel + 1 =>
    if i < str.length then
      (splitStringLoop str n partSize (i + partSize) fuel).map
        (fun rest => splitChunk str n i partSize :: rest)
    else
      some []

/-- `Cipher::splitString(str, n)` (Cipher.hpp lines 45-72):
`part_size = str_length / n` (integer division), then the loop.
Fuel `str.length + 1` suffices for every run of the C++ loop that
terminates (the index strictly increases by `part_size ≥ 1`, so there are
at most `str.length` iterations plus the final test); when `part_size = 0`
and the string is non-empty the C++ loop never terminates and this
function returns `none` (see `splitStringDiverges`). -/
def splitString (str : List Char) (n : Nat) : Option (List (List Char)) :=
  splitStringLoop str n (str.length / n) 0 (str.length + 1)

/-- The C++ loop of `Cipher::splitString` runs forever on this input:
no amount of fuel makes it terminate. -/
def splitStringDiverges (str : List Char) (n : Nat) : Prop :=
  ∀ fuel, splitStringLoop str n (str.length / n) 0 fuel = none

/-- `int nThreads{4}` from `main` (line 127): the worker count is a
hard-coded constant. -/
def nThreads : Nat := 4

/-- The data produced by the cipher phase of `main`: the values computed
by the four futures (`applyCipher(substrs[i], mode)` for `i = 0..3`) and
the recombined `outputText` (`outputText += substrs[i]` for `i = 0..3`,
lines 155-160 — the untransformed substrings, the futures are never
read). -/
structure PipelineResult where
  futureResults : List (List Char)
  outputText : List Char
deriving DecidableEq

/-- The cipher phase of `main` (lines 127-160).  `splitString` is called
with `nThreads`; each of the four workers computes
`applyCipher(substrs[i], mode)`; the output is the concatenation of
`substrs[0] .. substrs[3]`.  Returns `none` when the C++ code has no
defined result: `splitString` never returns (fuel exhausted), or
`substrs[i]` would index out of bounds. -/
def runPipeline (applyC : List Char → CipherMode → List Char)
    (mode : CipherMode) (inputText : List Char) : Option PipelineResult :=
  match splitString inputText nThreads with
  | none => none
  | some substrs =>
    if nThreads ≤ substrs.length then
      some { futureResults := (substrs.take nThreads).map (fun s => applyC s mode),
             outputText := (substrs.take nThreads).flatten }
    else
      none

/-- The polling wait of `main` (lines 139-153): each round of the
do-while loop only calls `wait_for` on the futures and prints
"processing"; the worker data is left untouched. -/
def pollLoop (workerData : List (List Char)) : Nat → List (List Char)
  | 0 => workerData
  | rounds + 1 => pollLoop workerData rounds

/-- The cipher phase of `main` including the polling wait, parameterised
by the number of polling rounds the do-while loop performs before all
futures report ready. -/
def runPipelinePoll (applyC : List Char → CipherMode → List Char)
    (mode : CipherMode) (inputText : List Char) (rounds : Nat) :
    Option PipelineResult :=
  match splitString inputText nThreads with
  | none => none
  | some substrs =>
    if nThreads ≤ substrs.length then
      some { futureResults := (substrs.take nThreads).map (fun s => applyC s mode),
             outputText := ((pollLoop substrs rounds).take nThreads).flatten }
    else
      none

/-- Modelled from the spec: the Caesar shift on a single character
(`CaesarCipher` is not among the sources).  Uppercase letters are shifted
by `k` positions with wraparound; encrypt shifts forward, decrypt
backward. -/
def caesarChar (k : Nat) (mode : CipherMode) (c : Char) : Char :=
  if 'A' ≤ c ∧ c ≤ 'Z' then
    match mode with
    | CipherMode.Encrypt => Char.ofNat ('A'.toNat + (c.toNat - 'A'.toNat + k) % 26)
    | CipherMode.Decrypt => Char.ofNat ('A'.toNat + (c.toNat - 'A'.toNat + (26 - k % 26)) % 26)
  else c

/-- Modelled from the spec: `CaesarCipher::applyCipher` on character
strings, shifting each letter (argument order as in
`applyCipher(inputText, cipherMode)`). -/
def caesarCharApply (k : Nat) (inputText : List Char) (mode : CipherMode) : List Char :=
  inputText.map (caesarChar k mode)

/-! ### The cipher algorithms, modelled from the spec over `ZMod 26`

The spec's "supported alphabet" is the 26 uppercase letters; a letter is
modelled as an element of `ZMod 26` (`A = 0`, ..., `Z = 25`). -/

/-- Modelled from the spec: `CaesarCipher::applyCipher` (the
implementation file is not among the sources).  The validated key is the
integer shift already reduced modulo 26 at construction; encrypt shifts
each letter forward by the key, decrypt shifts backward. -/
def caesarApplyCipher (k : ZMod 26) (inputText : List (ZMod 26))
    (mode : CipherMode) : List (ZMod 26) :=
  match mode with
  | CipherMode.Encrypt => inputText.map (fun c => c + k)
  | CipherMode.Decrypt => inputText.map (fun c => c - k)

/-- Modelled from the spec: the Vigenère loop — letter number `i` of the
input is combined with letter `i % key.length` of the keyword. -/
def vigenereRun (op : ZMod 26 → ZMod 26 → ZMod 26) (key : List (ZMod 26)) :
    Nat → List (ZMod 26) → List (ZMod 26)
  | _, [] => []
  | i, c :: cs => op c (key.getD (i % key.length) 0) :: vigenereRun op key (i + 1) cs

/-- Modelled from the spec: `VigenereCipher::applyCipher` (the
implementation file is not among the sources).  Each letter is shifted by
the keyword letter at the same position modulo the keyword length;
decrypt applies the inverse shift with the same alignment. -/
def vigenereApplyCipher (key : List (ZMod 26)) (inputText : List (ZMod 26))
    (mode : CipherMode) : List (ZMod 26) :=
  match mode with
  | CipherMode.Encrypt => vigenereRun (fun c s => c + s) key 0 inputText
  | CipherMode.Decrypt => vigenereRun (fun c s => c - s) key 0 inputText

/-- Modelled from the spec: the I/J merge of Playfair — the letter J
(number 9) is replaced by I (number 8); the other 25 letters are the
usable alphabet of the 5×5 key square. -/
def mergeJ (c : ZMod 26) : ZMod 26 :=
  if c = 9 then 8 else c

/-- The 25 usable Playfair letters (every letter except J), in
alphabetical order. -/
def alphabet25 : List (ZMod 26) :=
  [0, 1, 2, 3, 4, 5, 6, 7, 8, 10, 11, 12, 13, 14, 15, 16, 17, 18, 19,
   20, 21, 22, 23, 24, 25]

/-- Append a letter to the growing key square unless already present:
"duplicate letters in the keyword are dropped after first occurrence". -/
def insertUnique (seen : List (ZMod 26)) (c : ZMod 26) : List (ZMod 26) :=
  if c ∈ seen then seen else seen ++ [c]

/-- Modelled from the spec: the 5×5 Playfair key square as a row-major
list of 25 letters — the keyword's letters (J merged into I, duplicates
dropped after the first occurrence) followed by the remaining alphabet
letters in order. -/
def buildSquare (kw : List (ZMod 26)) : List (ZMod 26) :=
  (kw.map mergeJ ++ alphabet25).foldl insertUnique []

/-- Modelled from the spec: the Playfair filler letter (conventionally
X, letter number 23). -/
def pfFiller : ZMod 26 := 23

/-- Modelled from the spec: the Playfair digraph rule.  Letter positions
are indices into the row-major square (`row = index / 5`,
`column = index % 5`).  Same row: shift the column; same column: shift
the row; otherwise: swap the columns of the rectangle.  Encrypt uses
`shift = 1` (right/below), decrypt `shift = 4` (left/above, one step
backwards modulo 5). -/
def pfPairOp (shift : Nat) (sq : List (ZMod 26)) :
    ZMod 26 × ZMod 26 → ZMod 26 × ZMod 26
  | (a, b) =>
    if sq.indexOf a / 5 = sq.indexOf b / 5 then
      (sq.getD (sq.indexOf a / 5 * 5 + (sq.indexOf a % 5 + shift) % 5) a,
       sq.getD (sq.indexOf b / 5 * 5 + (sq.indexOf b % 5 + shift) % 5) b)
    else if sq.indexOf a % 5 = sq.indexOf b % 5 then
      (sq.getD ((sq.indexOf a / 5 + shift) % 5 * 5 + sq.indexOf a % 5) a,
       sq.getD ((sq.indexOf b / 5 + shift) % 5 * 5 + sq.indexOf b % 5) b)
    else
      (sq.getD (sq.indexOf a / 5 * 5 + sq.indexOf b % 5) a,
       sq.getD (sq.indexOf b / 5 * 5 + sq.indexOf a % 5) b)

/-- Modelled from the spec: the Playfair preprocessing — the input is
split into digraphs; a pair of identical letters is broken up by
inserting the filler letter, and a trailing unpaired letter is padded
with the filler. -/
def pfPrep (filler : ZMod 26) : List (ZMod 26) → List (ZMod 26 × ZMod 26)
  | [] => []
  | [a] => [(a, filler)]
  | a :: b :: rest =>
    if a = b then (a, filler) :: pfPrep filler (b :: rest)
    else (a, b) :: pfPrep filler rest

/-- Group an (even-length) list into consecutive pairs; used by decrypt,
which processes the ciphertext digraph by digraph. -/
def pairUp : List (ZMod 26) → List (ZMod 26 × ZMod 26)
  | a :: b :: rest => (a, b) :: pairUp rest
  | _ => []

/-- Flatten a list of digraphs back into a letter list. -/
def joinPairs : List (ZMod 26 × ZMod 26) → List (ZMod 26)
  | [] => []
  | (a, b) :: rest => a :: b :: joinPairs rest

/-- Modelled from the spec: `PlayfairCipher::applyCipher` (the
implementation file is not among the sources).  Encrypt preprocesses the
input into digraphs and applies the digraph rule with shift 1; decrypt
takes the ciphertext digraphs as they stand (it "does not attempt to
remove fillers") and applies the digraph rule with shift 4. -/
def playfairApplyCipher (kw : List (ZMod 26)) (inputText : List (ZMod 26))
    (mode : CipherMode) : List (ZMod 26) :=
  match mode with
  | CipherMode.Encrypt =>
    joinPairs ((pfPrep pfFiller inputText).map (pfPairOp 1 (buildSquare kw)))
  | CipherMode.Decrypt =>
    joinPairs ((pairUp inputText).map (pfPairOp 4 (buildSquare kw)))
/-! ### Basic facts about the splitter loop -/

/-- When `part_size = 0` and the loop index is inside the string, the
loop of `Cipher::splitString` never advances: it does not terminate for
any amount of fuel. -/
lemma splitStringLoop_zero_none (str : List Char) (n : Nat) :
    ∀ fuel i, i < str.length → splitStringLoop str n 0 i fuel = none := by
  intro fuel
  induction fuel with
  | zero => intro i _; rfl
  | succ f ih =>
    intro i hi
    rw [splitStringLoop, if_pos hi, Nat.add_zero, ih i hi]
    rfl

/-- When `part_size ≥ 1`, the loop of `Cipher::splitString` finishes once
the fuel exceeds the number of characters left to the right of the loop
index. -/
lemma splitStringLoop_isSome (str : List Char) (n partSize : Nat)
    (hp : 1 ≤ partSize) :
    ∀ fuel i, str.length - i < fuel →
      ∃ l, splitStringLoop str n partSize i fuel = some l := by
  intro fuel
  induction fuel with
  | zero => intro i h; omega
  | succ f ih =>
    intro i h
    rw [splitStringLoop]
    by_cases hi : i < str.length
    · rw [if_pos hi]
      obtain ⟨l, hl⟩ := ih (i + partSize) (by omega)
      exact ⟨splitChunk str n i partSize :: l, by rw [hl]; rfl⟩
    · rw [if_neg hi]
      exact ⟨[], rfl⟩

/-- For a non-empty string shorter than `n`, `part_size = 0` and
`Cipher::splitString` loops forever. -/
lemma splitString_diverges_of_short (str : List Char) (n : Nat)
    (hpos : 0 < str.length) (hlt : str.length < n) :
    splitStringDiverges str n := by
  intro fuel
  have hdiv : str.length / n = 0 := Nat.div_eq_of_lt hlt
  rw [hdiv]
  exact splitStringLoop_zero_none str n fuel 0 hpos

/-- For a string of length at least `n ≥ 1`, `part_size ≥ 1` and
`Cipher::splitString` terminates. -/
lemma splitString_isSome_of_le (str : List Char) (n : Nat)
    (hn : 1 ≤ n) (hle : n ≤ str.length) :
    ∃ l, splitString str n = some l := by
  have hp : 1 ≤ str.length / n := (Nat.one_le_div_iff (by omega)).mpr hle
  exact splitStringLoop_isSome str n (str.length / n) hp (str.length + 1) 0 (by omega)

/-- In the equal-division case (`str_length = n * part_size`), the loop
of `Cipher::splitString` starting at index `(n - k) * part_size` pushes
exactly `k` further chunks. -/
lemma splitStringLoop_equal_count (str : List Char) (n partSize : Nat)
    (hp : 1 ≤ partSize) (hlen : str.length = n * partSize) :
    ∀ k, k ≤ n → ∀ fuel, k < fuel →
      ∃ l, splitStringLoop str n partSize ((n - k) * partSize) fuel = some l ∧
        l.length = k := by
  intro k
  induction k with
  | zero =>
    intro _ fuel hfuel
    match fuel, hfuel with
    | f + 1, _ =>
      refine ⟨[], ?_, rfl⟩
      rw [splitStringLoop, if_neg]
      simp [hlen]
  | succ k ih =>
    intro hk fuel hfuel
    match fuel, hfuel with
    | f + 1, hfuel =>
      have hi : (n - (k + 1)) * partSize < str.length := by
        rw [hlen]
        exact (Nat.mul_lt_mul_right (by omega : 0 < partSize)).mpr (by omega)
      obtain ⟨l, hl, hlc⟩ := ih (by omega) f (by omega)
      have hstep : (n - (k + 1)) * partSize + partSize = (n - k) * partSize := by
        have : n - k = (n - (k + 1)) + 1 := by omega
        rw [this, Nat.succ_mul]
      refine ⟨splitChunk str n ((n - (k + 1)) * partSize) partSize :: l, ?_, by
        simp [hlc]⟩
      rw [splitStringLoop, if_pos hi, hstep, hl]
      rfl

/-- When `n ≥ 1` divides the length of a non-empty string,
`Cipher::splitString` returns exactly `n` chunks. -/
lemma splitString_equal_count (str : List Char) (n : Nat)
    (hn : 1 ≤ n) (hdvd : n ∣ str.length) (hpos : 0 < str.length) :
    ∃ l, splitString str n = some l ∧ l.length = n := by
  obtain ⟨p, hp⟩ := hdvd
  have hppos : 1 ≤ p := by
    rcases Nat.eq_zero_or_pos p with h0 | h1
    · subst h0
      rw [Nat.mul_zero] at hp
      omega
    · exact h1
  have hdivp : str.length / n = p := by
    rw [hp, Nat.mul_div_cancel_left _ (by omega)]
  have := splitStringLoop_equal_count str n p hppos hp n (le_refl n)
    (str.length + 1) (by
      have : n ≤ str.length := by
        calc n = n * 1 := (Nat.mul_one n).symm
        _ ≤ n * p := Nat.mul_le_mul_left n hppos
        _ = str.length := hp.symm
      omega)
  rw [Nat.sub_self, Nat.zero_mul] at this
  rw [splitString, hdivp]
  exact this

/-- With a single worker, `Cipher::splitString` returns the whole string
as the only chunk (or no chunk at all for the empty string), so
concatenating the chunks gives back the string. -/
lemma splitString_one (str : List Char) :
    (splitString str 1).map List.flatten = some str := by
  match h : str with
  | [] => rfl
  | c :: cs =>
    rw [splitString, Nat.div_one]
    have hlen : (c :: cs).length = cs.length + 1 := rfl
    rw [splitStringLoop, if_pos (by simp)]
    rw [hlen, splitStringLoop, if_neg (by omega)]
    simp [splitChunk, Nat.mod_one]


/-! ### The polling wait -/

/-- Polling only observes the futures: the worker data after any number
of rounds is unchanged. -/
lemma pollLoop_id (workerData : List (List Char)) :
    ∀ rounds, pollLoop workerData rounds = workerData := by
  intro rounds
  induction rounds with
  | zero => rfl
  | succ r ih => exact ih

/-! ### Round trips of the modelled ciphers -/

/-- Caesar: decrypting an encryption with the same key gives back the
text. -/
lemma caesar_roundtrip (k : ZMod 26) (text : List (ZMod 26)) :
    caesarApplyCipher k (caesarApplyCipher k text CipherMode.Encrypt)
      CipherMode.Decrypt = text := by
  simp [caesarApplyCipher, List.map_map, Function.comp_def]

/-- Vigenère: running the subtracting loop over the result of the adding
loop, from the same start index, gives back the text. -/
lemma vigenereRun_roundtrip (key : List (ZMod 26)) :
    ∀ (text : List (ZMod 26)) (i : Nat),
      vigenereRun (fun c s => c - s) key i
        (vigenereRun (fun c s => c + s) key i text) = text := by
  intro text
  induction text with
  | nil => intro i; rfl
  | cons c cs ih =>
    intro i
    simp [vigenereRun, ih (i + 1)]

/-- Vigenère: decrypting an encryption with the same keyword gives back
the text. -/
lemma vigenere_roundtrip (key : List (ZMod 26)) (text : List (ZMod 26)) :
    vigenereApplyCipher key (vigenereApplyCipher key text CipherMode.Encrypt)
      CipherMode.Decrypt = text :=
  vigenereRun_roundtrip key text 0

/-! ### Playfair helper lemmas -/

/-- Regrouping the flattened digraphs recovers the digraphs. -/
lemma pairUp_joinPairs : ∀ P : List (ZMod 26 × ZMod 26),
    pairUp (joinPairs P) = P := by
  intro P
  induction P with
  | nil => rfl
  | cons p rest ih =>
    obtain ⟨a, b⟩ := p
    simp [joinPairs, pairUp, ih]

/-- The 25-letter alphabet has no repeats. -/
lemma alphabet25_nodup : alphabet25.Nodup := by decide

/-- Every letter other than J belongs to the 25-letter alphabet. -/
lemma mem_alphabet25 : ∀ c : ZMod 26, c ≠ 9 → c ∈ alphabet25 := by decide

/-- The I/J merge never produces the letter J. -/
lemma mergeJ_ne_nine (c : ZMod 26) : mergeJ c ≠ 9 := by
  unfold mergeJ
  split
  · decide
  · assumption

/-- Accumulating letters with `insertUnique` keeps the square free of
repeats. -/
lemma foldl_insertUnique_nodup :
    ∀ (l seen : List (ZMod 26)), seen.Nodup →
      (l.foldl insertUnique seen).Nodup := by
  intro l
  induction l with
  | nil => intro seen h; exact h
  | cons c cs ih =>
    intro seen h
    apply ih
    unfold insertUnique
    split
    · exact h
    · rename_i hc
      refine h.append (List.nodup_singleton c) ?_
      intro a ha hac
      rw [List.mem_singleton] at hac
      subst hac
      exact hc ha

/-- Membership in the accumulated square: a letter is present iff it was
already seen or occurs in the remaining input. -/
lemma mem_foldl_insertUnique :
    ∀ (l seen : List (ZMod 26)) (x : ZMod 26),
      x ∈ l.foldl insertUnique seen ↔ x ∈ seen ∨ x ∈ l := by
  intro l
  induction l with
  | nil => intro seen x; simp
  | cons c cs ih =>
    intro seen x
    have hins : x ∈ insertUnique seen c ↔ x ∈ seen ∨ x = c := by
      unfold insertUnique
      split
      · rename_i hc
        constructor
        · exact fun h => Or.inl h
        · rintro (h | rfl)
          · exact h
          · exact hc
      · simp
    calc x ∈ (c :: cs).foldl insertUnique seen
        ↔ x ∈ insertUnique seen c ∨ x ∈ cs := ih (insertUnique seen c) x
      _ ↔ (x ∈ seen ∨ x = c) ∨ x ∈ cs := by rw [hins]
      _ ↔ x ∈ seen ∨ x ∈ c :: cs := by simp [List.mem_cons]; tauto

/-- The key square built from any keyword has no repeated letters. -/
lemma buildSquare_nodup (kw : List (ZMod 26)) : (buildSquare kw).Nodup :=
  foldl_insertUnique_nodup _ [] List.nodup_nil

/-- Every letter other than J appears in the key square built from any
keyword. -/
lemma mem_buildSquare (kw : List (ZMod 26)) {c : ZMod 26} (hc : c ≠ 9) :
    c ∈ buildSquare kw := by
  rw [buildSquare, mem_foldl_insertUnique]
  exact Or.inr (List.mem_append.mpr (Or.inr (mem_alphabet25 c hc)))

/-- The key square holds the same letters as the 25-letter alphabet. -/
lemma buildSquare_toFinset (kw : List (ZMod 26)) :
    (buildSquare kw).toFinset = alphabet25.toFinset := by
  ext x
  rw [List.mem_toFinset, List.mem_toFinset, buildSquare, mem_foldl_insertUnique]
  constructor
  · rintro (hx | hx)
    · simp at hx
    · rcases List.mem_append.mp hx with hx | hx
      · obtain ⟨y, _, rfl⟩ := List.mem_map.mp hx
        exact mem_alphabet25 _ (mergeJ_ne_nine y)
      · exact hx
  · intro hx
    exact Or.inr (List.mem_append.mpr (Or.inr hx))

/-- The key square built from any keyword has exactly 25 letters. -/
lemma buildSquare_length (kw : List (ZMod 26)) :
    (buildSquare kw).length = 25 := by
  have h1 := List.toFinset_card_of_nodup (buildSquare_nodup kw)
  rw [buildSquare_toFinset, List.toFinset_card_of_nodup alphabet25_nodup] at h1
  exact h1.symm

/-- Reading the square at a valid index gives a letter of the square
whose index is the one read from. -/
lemma sq_getD_spec {sq : List (ZMod 26)} (hnd : sq.Nodup)
    (hlen : sq.length = 25) {idx : Nat} (hidx : idx < 25) (d : ZMod 26) :
    sq.indexOf (sq.getD idx d) = idx ∧ sq.getD idx d ∈ sq := by
  have hidx' : idx < sq.length := by omega
  rw [List.getD_eq_getElem sq d hidx']
  have hmem : sq[idx] ∈ sq := List.getElem_mem hidx'
  refine ⟨?_, hmem⟩
  have h1 : sq.indexOf sq[idx] < sq.length := List.indexOf_lt_length.mpr hmem
  have h2 : sq[sq.indexOf sq[idx]] = sq[idx] := List.getElem_indexOf h1
  exact (hnd.getElem_inj_iff).mp h2

/-- Reading the square at the index of one of its letters gives back the
letter. -/
lemma sq_getD_indexOf {sq : List (ZMod 26)} {a : ZMod 26} (ha : a ∈ sq)
    (d : ZMod 26) : sq.getD (sq.indexOf a) d = a := by
  have h1 : sq.indexOf a < sq.length := List.indexOf_lt_length.mpr ha
  rw [List.getD_eq_getElem sq d h1]
  exact List.getElem_indexOf h1

/-- The Playfair digraph rule with shift 4 undoes the rule with shift 1
on any well-formed 5×5 square: same-row pairs move back one column,
same-column pairs move back one row, and the rectangle rule is its own
inverse. -/
lemma pfPairOp_roundtrip {sq : List (ZMod 26)} (hnd : sq.Nodup)
    (hlen : sq.length = 25) {a b : ZMod 26} (ha : a ∈ sq) (hb : b ∈ sq) :
    pfPairOp 4 sq (pfPairOp 1 sq (a, b)) = (a, b) := by
  have hia : sq.indexOf a < 25 := by
    have := List.indexOf_lt_length.mpr ha
    omega
  have hib : sq.indexOf b < 25 := by
    have := List.indexOf_lt_length.mpr hb
    omega
  by_cases hrow : sq.indexOf a / 5 = sq.indexOf b / 5
  · obtain ⟨hi1, hm1⟩ := sq_getD_spec hnd hlen
      (show sq.indexOf a / 5 * 5 + (sq.indexOf a % 5 + 1) % 5 < 25 by omega) a
    obtain ⟨hi2, hm2⟩ := sq_getD_spec hnd hlen
      (show sq.indexOf b / 5 * 5 + (sq.indexOf b % 5 + 1) % 5 < 25 by omega) b
    simp only [pfPairOp]
    rw [if_pos hrow]
    simp only [pfPairOp]
    rw [hi1, hi2]
    rw [if_pos (by omega)]
    have e1 : (sq.indexOf a / 5 * 5 + (sq.indexOf a % 5 + 1) % 5) / 5 * 5 +
        ((sq.indexOf a / 5 * 5 + (sq.indexOf a % 5 + 1) % 5) % 5 + 4) % 5 =
        sq.indexOf a := by omega
    have e2 : (sq.indexOf b / 5 * 5 + (sq.indexOf b % 5 + 1) % 5) / 5 * 5 +
        ((sq.indexOf b / 5 * 5 + (sq.indexOf b % 5 + 1) % 5) % 5 + 4) % 5 =
        sq.indexOf b := by omega
    rw [e1, e2, sq_getD_indexOf ha, sq_getD_indexOf hb]
  · by_cases hcol : sq.indexOf a % 5 = sq.indexOf b % 5
    · obtain ⟨hi1, hm1⟩ := sq_getD_spec hnd hlen
        (show (sq.indexOf a / 5 + 1) % 5 * 5 + sq.indexOf a % 5 < 25 by omega) a
      obtain ⟨hi2, hm2⟩ := sq_getD_spec hnd hlen
        (show (sq.indexOf b / 5 + 1) % 5 * 5 + sq.indexOf b % 5 < 25 by omega) b
      simp only [pfPairOp]
      rw [if_neg hrow, if_pos hcol]
      simp only [pfPairOp]
      rw [hi1, hi2]
      rw [if_neg (by omega), if_pos (by omega)]
      have e1 : (((sq.indexOf a / 5 + 1) % 5 * 5 + sq.indexOf a % 5) / 5 + 4) % 5 * 5 +
          ((sq.indexOf a / 5 + 1) % 5 * 5 + sq.indexOf a % 5) % 5 =
          sq.indexOf a := by omega
      have e2 : (((sq.indexOf b / 5 + 1) % 5 * 5 + sq.indexOf b % 5) / 5 + 4) % 5 * 5 +
          ((sq.indexOf b / 5 + 1) % 5 * 5 + sq.indexOf b % 5) % 5 =
          sq.indexOf b := by omega
      rw [e1, e2, sq_getD_indexOf ha, sq_getD_indexOf hb]
    · obtain ⟨hi1, hm1⟩ := sq_getD_spec hnd hlen
        (show sq.indexOf a / 5 * 5 + sq.indexOf b % 5 < 25 by omega) a
      obtain ⟨hi2, hm2⟩ := sq_getD_spec hnd hlen
        (show sq.indexOf b / 5 * 5 + sq.indexOf a % 5 < 25 by omega) b
      simp only [pfPairOp]
      rw [if_neg hrow, if_neg hcol]
      simp only [pfPairOp]
      rw [hi1, hi2]
      rw [if_neg (by omega), if_neg (by omega)]
      have e1 : (sq.indexOf a / 5 * 5 + sq.indexOf b % 5) / 5 * 5 +
          (sq.indexOf b / 5 * 5 + sq.indexOf a % 5) % 5 = sq.indexOf a := by omega
      have e2 : (sq.indexOf b / 5 * 5 + sq.indexOf a % 5) / 5 * 5 +
          (sq.indexOf a / 5 * 5 + sq.indexOf b % 5) % 5 = sq.indexOf b := by omega
      rw [e1, e2, sq_getD_indexOf ha, sq_getD_indexOf hb]

/-- Every letter of a preprocessed digraph comes from the input text or
is the filler letter. -/
lemma pfPrep_letters (filler : ZMod 26) :
    ∀ (fuel : Nat) (t : List (ZMod 26)), t.length ≤ fuel →
      ∀ p ∈ pfPrep filler t,
        (p.1 ∈ t ∨ p.1 = filler) ∧ (p.2 ∈ t ∨ p.2 = filler) := by
  intro fuel
  induction fuel with
  | zero =>
    intro t ht p hp
    match t with
    | [] => simp [pfPrep] at hp
  | succ f ih =>
    intro t ht p hp
    match t with
    | [] => simp [pfPrep] at hp
    | [a] =>
      rw [pfPrep] at hp
      rw [List.mem_singleton] at hp
      subst hp
      exact ⟨Or.inl (by simp), Or.inr rfl⟩
    | a :: b :: rest =>
      rw [pfPrep] at hp
      by_cases hab : a = b
      · rw [if_pos hab] at hp
        rcases List.mem_cons.mp hp with rfl | hp
        · exact ⟨Or.inl (by simp), Or.inr rfl⟩
        · have hlt : (b :: rest).length ≤ f := by
            simp at ht ⊢
            omega
          obtain ⟨h1, h2⟩ := ih (b :: rest) hlt p hp
          constructor
          · rcases h1 with h1 | h1
            · exact Or.inl (List.mem_cons_of_mem a h1)
            · exact Or.inr h1
          · rcases h2 with h2 | h2
            · exact Or.inl (List.mem_cons_of_mem a h2)
            · exact Or.inr h2
      · rw [if_neg hab] at hp
        rcases List.mem_cons.mp hp with rfl | hp
        · exact ⟨Or.inl (by simp), Or.inl (by simp)⟩
        · have hlt : rest.length ≤ f := by
            simp at ht ⊢
            omega
          obtain ⟨h1, h2⟩ := ih rest hlt p hp
          constructor
          · rcases h1 with h1 | h1
            · exact Or.inl (by simp [h1])
            · exact Or.inr h1
          · rcases h2 with h2 | h2
            · exact Or.inl (by simp [h2])
            · exact Or.inr h2

/-- Applying the decrypt digraph rule to every encrypted digraph gives
back the digraphs, provided all their letters lie on the square. -/
lemma map_pfPairOp_roundtrip {sq : List (ZMod 26)} (hnd : sq.Nodup)
    (hlen : sq.length = 25) :
    ∀ P : List (ZMod 26 × ZMod 26),
      (∀ p ∈ P, p.1 ∈ sq ∧ p.2 ∈ sq) →
      (P.map (pfPairOp 1 sq)).map (pfPairOp 4 sq) = P := by
  intro P
  induction P with
  | nil => intro _; rfl
  | cons p rest ih =>
    intro hmem
    obtain ⟨a, b⟩ := p
    obtain ⟨ha, hb⟩ := hmem (a, b) (by simp)
    simp only [List.map_cons]
    rw [pfPairOp_roundtrip hnd hlen ha hb, ih (fun q hq => hmem q (by simp [hq]))]

/-- Playfair: decrypting an encryption gives back the preprocessed text
(the original text with the filler letters inserted), for any keyword
and any text avoiding the merged letter J. -/
lemma playfair_roundtrip (kw : List (ZMod 26)) (text : List (ZMod 26))
    (htext : ∀ c ∈ text, c ≠ (9 : ZMod 26)) :
    playfairApplyCipher kw (playfairApplyCipher kw text CipherMode.Encrypt)
      CipherMode.Decrypt = joinPairs (pfPrep pfFiller text) := by
  have hnd := buildSquare_nodup kw
  have hlen := buildSquare_length kw
  have hmem : ∀ p ∈ pfPrep pfFiller text,
      p.1 ∈ buildSquare kw ∧ p.2 ∈ buildSquare kw := by
    intro p hp
    obtain ⟨h1, h2⟩ := pfPrep_letters pfFiller text.length text (le_refl _) p hp
    constructor
    · rcases h1 with h1 | h1
      · exact mem_buildSquare kw (htext _ h1)
      · rw [h1]
        exact mem_buildSquare kw (by decide)
    · rcases h2 with h2 | h2
      · exact mem_buildSquare kw (htext _ h2)
      · rw [h2]
        exact mem_buildSquare kw (by decide)
  show joinPairs ((pairUp (joinPairs ((pfPrep pfFiller text).map
      (pfPairOp 1 (buildSquare kw))))).map (pfPairOp 4 (buildSquare kw))) = _
  rw [pairUp_joinPairs, map_pfPairOp_roundtrip hnd hlen _ hmem]

/-- The polling variant of the pipeline computes exactly what the
pipeline without polling computes: polling only observes state. -/
lemma runPipelinePoll_eq (applyC : List Char → CipherMode → List Char)
    (mode : CipherMode) (inputText : List Char) (rounds : Nat) :
    runPipelinePoll applyC mode inputText rounds
      = runPipeline applyC mode inputText := by
  unfold runPipelinePoll runPipeline
  cases splitString inputText nThreads with
  | none => rfl
  | some substrs => simp [pollLoop_id]

/-! ### Claims -/

/-- Claim C1: the claim says the pipeline output is the concatenation of
the cipher-transformed chunks.  The code evaluated at the failing input
(Caesar shift 3, Encrypt, input "HELLO"): the four futures do compute the
transformed chunks "K", "HO", "OOR", "OR", but they are never read — the
output is "HELLLOLO", the concatenation of the first four untransformed
chunks, while the concatenation of the transformed chunks would be
"KHOOORORR". -/
theorem C1_output_is_untransformed_chunks :
    runPipeline (caesarCharApply 3) CipherMode.Encrypt "HELLO".toList
      = some ⟨["K".toList, "HO".toList, "OOR".toList, "OR".toList],
              "HELLLOLO".toList⟩
  ∧ (splitString "HELLO".toList nThreads).map
      (fun l => (l.map (fun s => caesarCharApply 3 s CipherMode.Encrypt)).flatten)
      = some "KHOOORORR".toList
  ∧ "HELLLOLO".toList ≠ "KHOOORORR".toList := by
  refine ⟨?_, ?_, ?_⟩ <;> decide

/-- Claim C2 (counterexample): splitting the 10-character text
"ABCDEFGHIJ" with worker count 4 and concatenating the chunks yields the
18-character text "ABCDEFEFGHIJGHIJIJ", not the original — characters
are duplicated, refuting the round-trip claim as stated. -/
theorem C2_counterexample :
    (splitString "ABCDEFGHIJ".toList 4).map List.flatten
      = some "ABCDEFEFGHIJGHIJIJ".toList
  ∧ "ABCDEFEFGHIJGHIJIJ".toList ≠ "ABCDEFGHIJ".toList := by
  refine ⟨?_, ?_⟩ <;> decide

/-- Claim C2 (amended): with worker count N = 1 the concatenation of the
chunks produced by `splitString` does reproduce the original text; for
N ≥ 2 the chunks can overlap, so the round trip fails in general. -/
theorem C2_roundtrip_single_worker (str : List Char) :
    (splitString str 1).map List.flatten = some str :=
  splitString_one str

/-- Claim C3 (counterexample): `splitString` on the 10-character text
"ABCDEFGHIJ" with n = 4 returns 5 chunks, not 4. -/
theorem C3_counterexample :
    (splitString "ABCDEFGHIJ".toList 4).map List.length = some 5
  ∧ (5 : Nat) ≠ 4 := by
  refine ⟨?_, ?_⟩ <;> decide

/-- Claim C3 (amended): `splitString` returns exactly N chunks only in
the equal-division case — when N ≥ 1 divides the length of a non-empty
text. -/
theorem C3_chunk_count_equal_division (str : List Char) (n : Nat)
    (hn : 1 ≤ n) (hdvd : n ∣ str.length) (hpos : 0 < str.length) :
    (splitString str n).map List.length = some n := by
  obtain ⟨l, hl, hlen⟩ := splitString_equal_count str n hn hdvd hpos
  rw [hl]
  simp [hlen]

/-- Witness for C3 (amended) at the 4-character text "ABCD" with n = 2. -/
theorem C3_chunk_count_equal_division_witness :
    (splitString "ABCD".toList 2).map List.length = some 2 :=
  C3_chunk_count_equal_division "ABCD".toList 2 (by decide) (by decide)
    (by decide)

/-- Claim C4 (counterexample): splitting the 10-character input
"ABCDEFGHIJ" with worker count 4 produces chunk sizes 2, 4, 6, 4, 2 —
not 2, 2, 2, 4 — and the concatenation of the chunks is not the original
text. -/
theorem C4_counterexample :
    (splitString "ABCDEFGHIJ".toList 4).map (List.map List.length)
      = some [2, 4, 6, 4, 2]
  ∧ ([2, 4, 6, 4, 2] : List Nat) ≠ [2, 2, 2, 4]
  ∧ (splitString "ABCDEFGHIJ".toList 4).map List.flatten
      ≠ some "ABCDEFGHIJ".toList := by
  refine ⟨?_, ?_, ?_⟩ <;> decide

/-- Claim C4 (amended): splitting a 10-character input with worker count
4 produces the five overlapping chunks "AB", "CDEF", "EFGHIJ", "GHIJ",
"IJ" of sizes 2, 4, 6, 4, 2. -/
theorem C4_ten_char_four_workers :
    splitString "ABCDEFGHIJ".toList 4
      = some ["AB".toList, "CDEF".toList, "EFGHIJ".toList, "GHIJ".toList,
              "IJ".toList]
  ∧ (splitString "ABCDEFGHIJ".toList 4).map (List.map List.length)
      = some [2, 4, 6, 4, 2] := by
  refine ⟨?_, ?_⟩ <;> decide

/-- Claim C5: the claim says the pipeline with the Caesar cipher, key 3,
mode Encrypt, on "HELLO" outputs "KHOOR".  The code evaluated at that
input outputs "HELLLOLO" (the first four untransformed, overlapping
chunks), not "KHOOR". -/
theorem C5_hello_caesar_output :
    (runPipeline (caesarCharApply 3) CipherMode.Encrypt "HELLO".toList).map
      PipelineResult.outputText = some "HELLLOLO".toList
  ∧ "HELLLOLO".toList ≠ "KHOOR".toList := by
  refine ⟨?_, ?_⟩ <;> decide

/-- Claim C6: for the ciphers as modelled from the spec, decrypting an
encryption with the same valid key returns the original text: exactly for
Caesar (any shift) and Vigenère (any non-empty keyword); for Playfair
(any keyword, text over the 25-letter alphabet, i.e. avoiding the merged
letter J) the result is the original text with the filler letters
inserted by preprocessing — the round trip "up to inserted filler
letters". -/
theorem C6_decrypt_encrypt_roundtrip :
    (∀ (k : ZMod 26) (text : List (ZMod 26)),
      caesarApplyCipher k (caesarApplyCipher k text CipherMode.Encrypt)
        CipherMode.Decrypt = text)
  ∧ (∀ (key : List (ZMod 26)) (text : List (ZMod 26)), key ≠ [] →
      vigenereApplyCipher key (vigenereApplyCipher key text CipherMode.Encrypt)
        CipherMode.Decrypt = text)
  ∧ (∀ (kw : List (ZMod 26)) (text : List (ZMod 26)),
      (∀ c ∈ text, c ≠ (9 : ZMod 26)) →
      playfairApplyCipher kw (playfairApplyCipher kw text CipherMode.Encrypt)
        CipherMode.Decrypt = joinPairs (pfPrep pfFiller text)) :=
  ⟨fun k text => caesar_roundtrip k text,
   fun key text _ => vigenere_roundtrip key text,
   fun kw text h => playfair_roundtrip kw text h⟩

/-- Witness for C6 at concrete keys and the text "HELLO" (as letter
numbers): Caesar key 3, Vigenère keyword "KEY", Playfair keyword
"MONARCHY". -/
theorem C6_decrypt_encrypt_roundtrip_witness :
    caesarApplyCipher 3 (caesarApplyCipher 3 [7, 4, 11, 11, 14]
      CipherMode.Encrypt) CipherMode.Decrypt = [7, 4, 11, 11, 14]
  ∧ vigenereApplyCipher [10, 4, 24] (vigenereApplyCipher [10, 4, 24]
      [7, 4, 11, 11, 14] CipherMode.Encrypt) CipherMode.Decrypt
      = [7, 4, 11, 11, 14]
  ∧ playfairApplyCipher [12, 14, 13, 0, 17, 2, 7, 24]
      (playfairApplyCipher [12, 14, 13, 0, 17, 2, 7, 24] [7, 4, 11, 11, 14]
        CipherMode.Encrypt) CipherMode.Decrypt
      = joinPairs (pfPrep pfFiller [7, 4, 11, 11, 14]) :=
  ⟨C6_decrypt_encrypt_roundtrip.1 3 [7, 4, 11, 11, 14],
   C6_decrypt_encrypt_roundtrip.2.1 [10, 4, 24] [7, 4, 11, 11, 14] (by decide),
   C6_decrypt_encrypt_roundtrip.2.2 [12, 14, 13, 0, 17, 2, 7, 24]
     [7, 4, 11, 11, 14] (by decide)⟩

/-- Claim C7: the claim says that after the polling wait every worker's
transformed chunk is included in the recombined output.  The code
evaluated at the failing input (Caesar shift 3, Encrypt, "HELLO"): the
polling indeed never alters the result — the output is the same for any
number of polling rounds — but no worker's transformed chunk is included
at all: the futures hold "K", "HO", "OOR", "OR" while the output
"HELLLOLO" is assembled from the untransformed chunks and does not even
contain the letter K. -/
theorem C7_polling_output (rounds : Nat) :
    runPipelinePoll (caesarCharApply 3) CipherMode.Encrypt "HELLO".toList
      rounds
      = some ⟨["K".toList, "HO".toList, "OOR".toList, "OR".toList],
              "HELLLOLO".toList⟩
  ∧ 'K' ∉ "HELLLOLO".toList := by
  rw [runPipelinePoll_eq]
  refine ⟨?_, ?_⟩ <;> decide

/-- Claim C8 (counterexample): partitioning is not total over every text
and worker count N ≥ 1 — on the 2-character text "AB" with n = 4 the
loop of `Cipher::splitString` has `part_size = 0`, never advances its
index, and never terminates. -/
theorem C8_counterexample : splitStringDiverges "AB".toList 4 :=
  splitString_diverges_of_short "AB".toList 4 (by decide) (by decide)

/-- Claim C8 (amended): partitioning terminates for any worker count
N ≥ 1 on texts that are empty or of length at least N; for a non-empty
text shorter than N the splitter never terminates.  The pipeline's
worker count is the hard-coded constant 4, so a zero worker count indeed
never reaches the splitter (though nothing rejects one — there is no
configurable worker count at all). -/
theorem C8_partition_totality :
    (∀ (str : List Char) (n : Nat), 1 ≤ n →
        str.length = 0 ∨ n ≤ str.length → ∃ l, splitString str n = some l)
  ∧ (∀ (str : List Char) (n : Nat), 0 < str.length → str.length < n →
        splitStringDiverges str n)
  ∧ nThreads ≠ 0 := by
  refine ⟨?_, ?_, ?_⟩
  · intro str n hn h
    rcases h with h | h
    · have hnil : str = [] := List.eq_nil_of_length_eq_zero h
      subst hnil
      exact ⟨[], rfl⟩
    · exact splitString_isSome_of_le str n hn h
  · intro str n h1 h2
    exact splitString_diverges_of_short str n h1 h2
  · decide

/-- Witness for C8 (amended) at the text "ABCD" with n = 2 (terminates)
and the text "AB" with n = 3 (diverges). -/
theorem C8_partition_totality_witness :
    (∃ l, splitString "ABCD".toList 2 = some l)
  ∧ splitStringDiverges "AB".toList 3
  ∧ nThreads ≠ 0 :=
  ⟨C8_partition_totality.1 "ABCD".toList 2 (by decide)
     (Or.inr (by decide)),
   C8_partition_totality.2.1 "AB".toList 3 (by decide) (by decide),
   C8_partition_totality.2.2⟩

/-- Claim C9: the pipeline's final output is independent of the cipher
and of the mode — two runs on the same input text that differ only in
the `applyCipher` function and/or the mode produce identical output,
because the output is assembled from the untransformed chunks. -/
theorem C9_output_independent_of_cipher
    (applyC applyC' : List Char → CipherMode → List Char)
    (mode mode' : CipherMode) (inputText : List Char) :
    (runPipeline applyC mode inputText).map PipelineResult.outputText
      = (runPipeline applyC' mode' inputText).map PipelineResult.outputText := by
  unfold runPipeline
  cases splitString inputText nThreads with
  | none => rfl
  | some substrs =>
    by_cases h : nThreads ≤ substrs.length <;> simp [h]

/-- Claim C10: `splitString(str, n)` with n ≥ 1 terminates when the
string is empty (returning the empty vector) and when the string has
length at least n (the per-chunk size is then at least 1 and the loop
index strictly increases); for a non-empty string shorter than n the
loop index never advances and the loop never terminates. -/
theorem C10_splitString_termination :
    (∀ (str : List Char) (n : Nat), 1 ≤ n → str.length = 0 →
        splitString str n = some [])
  ∧ (∀ (str : List Char) (n : Nat), 1 ≤ n → n ≤ str.length →
        ∃ l, splitString str n = some l)
  ∧ (∀ (str : List Char) (n : Nat), 0 < str.length → str.length < n →
        splitStringDiverges str n) := by
  refine ⟨?_, ?_, ?_⟩
  · intro str n _ h
    have hnil : str = [] := List.eq_nil_of_length_eq_zero h
    subst hnil
    rfl
  · intro str n hn h
    exact splitString_isSome_of_le str n hn h
  · intro str n h1 h2
    exact splitString_diverges_of_short str n h1 h2

/-- Witness for C10 at the empty text with n = 3, the text "HELLO" with
n = 5, and the text "HI" with n = 3. -/
theorem C10_splitString_termination_witness :
    splitString "".toList 3 = some []
  ∧ (∃ l, splitString "HELLO".toList 5 = some l)
  ∧ splitStringDiverges "HI".toList 3 :=
  ⟨C10_splitString_termination.1 "".toList 3 (by decide) (by decide),
   C10_splitString_termination.2.1 "HELLO".toList 5 (by decide) (by decide),
   C10_splitString_termination.2.2 "HI".toList 3 (by decide) (by decide)⟩
